import Mathlib

/-!
Verification of the sshfs mount core (src/src/sshfs_mount/sshfs_mount.cpp).

The development shallowly embeds the functions of that file over an explicit
model of the remote host: the remote filesystem is a list of existing
directories (each directory is the list of its path segments, the root being
the empty list), plus oracles for the outputs of the fixed remote commands the
code issues (pwd, getent, id -nu, id -ng, id -u, id -g, which sshfs).
Remote commands other than the sshfs probe are assumed to exit 0, matching the
scenarios of the properties below; the probe carries an explicit exit code.

Path segments are `List Char` and the path-handling core works on `List Char`
(`String` in Lean is a structure around `List Char`); `String`-level wrappers
mirror the C++ signatures.
-/

set_option maxHeartbeats 1000000

/-- A path segment, one component of a slash-separated path. -/
abbrev Seg := List Char

/-- Rebuild a `String` from its character list. -/
theorem string_mk_data (s : String) : String.mk s.data = s := rfl

/-- Modelled from the spec: `multipass::utils::trim_end` (repository code that
is not under src/); per the spec it strips trailing whitespace from the raw
capture. -/
def trimEnd (s : String) : String :=
  String.mk ((s.data.reverse.dropWhile Char.isWhitespace).reverse)

/-- The output post-processing inside `run_string_cmd` (sshfs_mount.cpp lines
61-67): trim trailing whitespace from the captured string `ret`, then, if the
result is non-empty, `pop_back` its final character. -/
def run_string_cmd_trim (ret : String) : String :=
  let t := trimEnd ret
  if t.length ≠ 0 then String.mk t.data.dropLast else t

/-- Model of `run_string_cmd` for a remote command whose true (word-joined)
output is `out`: the code runs `echo` of the backquoted command with a `-`
appended, so the raw capture is `out` followed by the sentinel `-` and the
newline `echo` emits, and then applies the trimming of lines 61-67. -/
def run_string_cmd (out : String) : String :=
  run_string_cmd_trim (out ++ "-\n")

theorem trimEnd_data (s : String) :
    (trimEnd s).data = (s.data.reverse.dropWhile Char.isWhitespace).reverse := rfl

/-- The sentinel technique is output-preserving: wrapping any true output with
the sentinel and the trailing newline and then trimming returns the output. -/
theorem run_string_cmd_id (s : String) : run_string_cmd s = s := by
  have hdata : (s ++ "-\n").data = s.data ++ ['-', '\n'] := by
    simp [String.data_append]
  have htrim : trimEnd (s ++ "-\n") = String.mk (s.data ++ ['-']) := by
    unfold trimEnd
    rw [hdata]
    have : (s.data ++ ['-', '\n']).reverse = '\n' :: '-' :: s.data.reverse := by
      simp
    rw [this]
    have hws : ('\n' :: '-' :: s.data.reverse).dropWhile Char.isWhitespace
        = '-' :: s.data.reverse := by
      rw [List.dropWhile_cons_of_pos (by decide)]
      rw [List.dropWhile_cons_of_neg (by decide)]
    rw [hws]
    simp
  unfold run_string_cmd run_string_cmd_trim
  rw [htrim]
  have hlen : (String.mk (s.data ++ ['-'])).length ≠ 0 := by
    show (s.data ++ ['-']).length ≠ 0
    simp
  simp only [hlen, if_pos, ne_eq, not_false_iff, if_true]
  show String.mk (s.data ++ ['-']).dropLast = s
  rw [List.dropLast_concat]

/-- Claim C4 (counterexample): for the raw capture consisting of the text
`value`, two trailing spaces, and the injected sentinel with no further
whitespace, the trimmed-output runner does NOT return exactly `value`. -/
theorem run_string_cmd_trim_value_cex :
    run_string_cmd_trim "value  -" ≠ "value" := by decide

/-- Claim C4 (amended): for a raw capture `value  -` (two trailing spaces
immediately followed by the injected sentinel and no further whitespace),
the trimmed-output runner returns `value  `: the sentinel is removed and the
whitespace that preceded it is preserved, which is the stated purpose of the
sentinel technique; only whitespace after the sentinel is stripped. -/
theorem run_string_cmd_trim_value :
    run_string_cmd_trim "value  -" = "value  " := by decide

/-- Claim C5 (counterexample): a non-empty whitespace-stripped capture that
does not end in the sentinel is NOT returned unchanged; its last character is
removed anyway. -/
theorem run_string_cmd_trim_unconditional_cex :
    run_string_cmd_trim "abc" ≠ "abc" := by decide

/-- Claim C5 (amended): the runner first strips trailing whitespace and then,
whenever the stripped capture is non-empty, unconditionally removes its final
character (which is the sentinel exactly when one is present); if the stripped
capture is empty nothing further is removed. In particular a capture whose
stripped form ends in the sentinel loses exactly that sentinel, and a
non-empty stripped capture not ending in the sentinel still shrinks by one
character instead of being returned unchanged. -/
theorem run_string_cmd_trim_behavior (r : String) :
    (trimEnd r = "" → run_string_cmd_trim r = "") ∧
    (trimEnd r ≠ "" → run_string_cmd_trim r = String.mk (trimEnd r).data.dropLast) ∧
    ((trimEnd r).data.getLast? = some '-' →
      run_string_cmd_trim r ++ "-" = trimEnd r) ∧
    (trimEnd r ≠ "" → (run_string_cmd_trim r).length + 1 = (trimEnd r).length) := by
  refine ⟨?_, ?_, ?_, ?_⟩
  · intro h
    unfold run_string_cmd_trim
    rw [h]
    simp
  · intro h
    unfold run_string_cmd_trim
    have hlen : (trimEnd r).length ≠ 0 := by
      intro hc
      apply h
      have hd : (trimEnd r).data = [] := List.length_eq_zero.mp hc
      calc trimEnd r = String.mk (trimEnd r).data := (string_mk_data _).symm
        _ = String.mk [] := by rw [hd]
        _ = "" := rfl
    simp only [hlen, ne_eq, not_false_iff, if_true]
  · intro h
    have hne : (trimEnd r).data ≠ [] := by
      intro hc
      rw [hc] at h
      simp at h
    have hlen : (trimEnd r).length ≠ 0 := by
      show (trimEnd r).data.length ≠ 0
      exact fun hc => hne (List.length_eq_zero.mp hc)
    unfold run_string_cmd_trim
    simp only [hlen, ne_eq, not_false_iff, if_true]
    have hd : (trimEnd r).data.dropLast ++ [(trimEnd r).data.getLast hne] = (trimEnd r).data :=
      List.dropLast_concat_getLast hne
    have hlast : (trimEnd r).data.getLast hne = '-' := by
      have hq : (trimEnd r).data.getLast? = some ((trimEnd r).data.getLast hne) :=
        List.getLast?_eq_getLast _ hne
      rw [hq] at h
      exact (Option.some_inj.mp h)
    calc String.mk (trimEnd r).data.dropLast ++ "-"
        = String.mk ((trimEnd r).data.dropLast ++ ['-']) := rfl
      _ = String.mk ((trimEnd r).data.dropLast ++ [(trimEnd r).data.getLast hne]) := by
          rw [hlast]
      _ = String.mk (trimEnd r).data := by rw [hd]
      _ = trimEnd r := string_mk_data _
  · intro h
    have hne : (trimEnd r).data ≠ [] := by
      intro hc
      apply h
      calc trimEnd r = String.mk (trimEnd r).data := (string_mk_data _).symm
        _ = "" := by rw [hc]
    have hlen : (trimEnd r).length ≠ 0 := by
      show (trimEnd r).data.length ≠ 0
      exact fun hc => hne (List.length_eq_zero.mp hc)
    unfold run_string_cmd_trim
    simp only [hlen, ne_eq, not_false_iff, if_true]
    show (trimEnd r).data.dropLast.length + 1 = (trimEnd r).data.length
    rw [List.length_dropLast]
    have : (trimEnd r).data.length ≠ 0 :=
      fun hc => hne (List.length_eq_zero.mp hc)
    omega

/-- Claim C5 (witness): the amended behavior at a concrete capture ending in
whitespace after the sentinel. -/
theorem run_string_cmd_trim_behavior_witness :
    run_string_cmd_trim "ok -\n" ++ "-" = trimEnd "ok -\n" :=
  (run_string_cmd_trim_behavior "ok -\n").2.2.1 (by decide)

/-! ## Path strings

The path-handling core of `get_path_split` works on character lists.  A path
is "nice" when its segments are non-empty, contain no slash and no whitespace,
and are neither `.` nor `..`; the theorems below quantify over nice paths,
matching the shell-quoting obligations the source code itself carries.
-/

/-- Join segments with `/` separators (no leading or trailing slash). -/
def interSlash : List Seg → List Char
  | [] => []
  | [s] => s
  | s :: rest => s ++ '/' :: interSlash rest

/-- The absolute path string with the given segments: a leading slash followed
by the slash-joined segments; `mkAbsL [] = "/"`. -/
def mkAbsL (ss : List Seg) : List Char := '/' :: interSlash ss

/-- Split a character list at every slash, keeping empty chunks. -/
def splitSlashL : List Char → List Seg
  | [] => [[]]
  | c :: rest =>
    if c = '/' then [] :: splitSlashL rest
    else
      match splitSlashL rest with
      | [] => [[c]]
      | h :: t => (c :: h) :: t

/-- The non-empty slash-separated components of a path string (the view of a
POSIX path taken both by the remote `-d` test and by Qt's SkipEmptyParts
splitting). -/
def segsOfL (l : List Char) : List Seg := (splitSlashL l).filter (fun s => !s.isEmpty)

/-- The shell parameter expansion `P=${P%/*}` (strip the shortest suffix
matching `/*`): drop everything from the last slash on; a string with no
slash is returned unchanged. -/
def stripLastCompL : List Char → List Char
  | [] => []
  | c :: rest =>
    if rest.contains '/' then c :: stripLastCompL rest
    else if c = '/' then [] else c :: rest

/-- A segment of a nice path: non-empty, free of slash and whitespace, and not
a dot component. -/
def NiceSeg (s : Seg) : Prop :=
  s ≠ [] ∧ (∀ c ∈ s, c ≠ '/' ∧ c.isWhitespace = false) ∧ s ≠ ['.'] ∧ s ≠ ['.', '.']

instance : DecidablePred NiceSeg := fun s => by
  unfold NiceSeg
  infer_instance

/-- All segments of the list are nice. -/
def NiceSegs (ss : List Seg) : Prop := ∀ s ∈ ss, NiceSeg s

instance : DecidablePred NiceSegs := fun ss => by
  unfold NiceSegs
  infer_instance

/-- The remote test `[ -d "$P/" ]`: the root always exists, and the other
existing directories are those recorded in `dirs` (each by its segments). -/
def isDirL (dirs : List (List Seg)) (p : List Char) : Bool :=
  let gs := segsOfL (p ++ ['/'])
  gs.isEmpty || decide (gs ∈ dirs)

/-- The remote `while [ ! -d "$P/" ]; do P=${P%/*}; done` loop of
`get_path_split`, with explicit fuel; `none` models the shell looping forever
(possible only when `P` has no slash yet is not a directory, which cannot
happen for an absolute starting path). -/
def findExistingFuel (dirs : List (List Seg)) : Nat → List Char → Option (List Char)
  | 0, _ => none
  | n + 1, p =>
    if isDirL dirs p then some p
    else if p.contains '/' then findExistingFuel dirs n (stripLastCompL p)
    else none

/-- Run the existing-ancestor search with enough fuel for any absolute path. -/
def findExisting (dirs : List (List Seg)) (p : List Char) : Option (List Char) :=
  findExistingFuel dirs (p.length + 1) p

/-- Directory test at the segment level. -/
def isDirSegs (dirs : List (List Seg)) (ss : List Seg) : Bool :=
  ss.isEmpty || decide (ss ∈ dirs)

/-- Reference form of the ancestor search on segment lists: starting from the
whole list, drop the last segment until a directory is reached; reaching the
empty list yields the empty string (the loop stripped `P` down to nothing and
`-d "/"` succeeded). -/
def gAux (dirs : List (List Seg)) : List Seg → List Char
  | [] => []
  | s :: rest =>
    if isDirSegs dirs (s :: rest) then mkAbsL (s :: rest)
    else gAux dirs (s :: rest).dropLast
  termination_by ss => ss.length
  decreasing_by
    simp [List.length_dropLast]

/-- The value `P` holds after the remote search loop, on segment lists. -/
def splitLoopRef (dirs : List (List Seg)) (ss : List Seg) : List Char :=
  if isDirSegs dirs ss then mkAbsL ss else gAux dirs ss.dropLast

/-- Normalization of the segments of an absolute path, as performed by Qt's
`QDir::cleanPath` on POSIX paths: `.` components are dropped and `..` pops
the previous component (at the root it is dropped). -/
def cleanSegsAbsAux (acc : List Seg) : List Seg → List Seg
  | [] => acc.reverse
  | s :: rest =>
    if s = ['.'] then cleanSegsAbsAux acc rest
    else if s = ['.', '.'] then cleanSegsAbsAux acc.tail rest
    else cleanSegsAbsAux (s :: acc) rest

/-- Normalization of the segments of a relative path (`..` components are kept
when there is nothing left to pop). -/
def cleanSegsRelAux (acc : List Seg) : List Seg → List Seg
  | [] => acc.reverse
  | s :: rest =>
    if s = ['.'] then cleanSegsRelAux acc rest
    else if s = ['.', '.'] then
      match acc with
      | [] => cleanSegsRelAux [['.', '.']] rest
      | a :: as =>
        if a = ['.', '.'] then cleanSegsRelAux (s :: a :: as) rest
        else cleanSegsRelAux as rest
    else cleanSegsRelAux (s :: acc) rest

/-- Modelled from Qt 5's `QDir::cleanPath` restricted to POSIX paths: removes
redundant separators and dot components and strips any trailing slash; the
clean form of a non-empty relative path that normalizes away completely is
`.`, and the empty string is returned unchanged. -/
def cleanPathL (l : List Char) : List Char :=
  if l = [] then []
  else if l.head? = some '/' then '/' :: interSlash (cleanSegsAbsAux [] (segsOfL l))
  else
    let cs := cleanSegsRelAux [] (segsOfL l)
    if cs = [] then ['.'] else interSlash cs

/-- Length of the longest common leading run of equal segments. -/
def commonPrefixLen : List Seg → List Seg → Nat
  | a :: as, b :: bs => if a = b then commonPrefixLen as bs + 1 else 0
  | _, _ => 0

/-- The `../` chunks Qt prepends, one per surplus directory component. -/
def upDirs (n : Nat) : List Char := (List.replicate n ['.', '.', '/']).flatten

/-- A path string is relative when it does not start with a slash (the empty
string is relative). -/
def isRelL (l : List Char) : Bool := l.head? != some '/'

/-- Modelled from Qt 5's `QDir::relativeFilePath` restricted to POSIX paths
(`QDir(dirPath).relativeFilePath(fileName)` for the absolute `dirPath` values
this code produces): clean both paths, return the cleaned file path if either
is relative, otherwise drop the common leading components, prepend one `../`
per remaining directory component, join the remaining file components with
slashes, and return `.` when the result would be empty. -/
def relativeFilePathL (dirPath fileName : List Char) : List Char :=
  let dir := cleanPathL dirPath
  let file := cleanPathL fileName
  if isRelL file || isRelL dir then file
  else
    let dirElts := segsOfL dir
    let fileElts := segsOfL file
    let i := commonPrefixLen dirElts fileElts
    let result := upDirs (dirElts.length - i) ++ interSlash (fileElts.drop i)
    if result = [] then ['.'] else result

/-- Modelled from Qt 5's `QDir` constructor (`QDirPrivate::setPath`): the
stored path has a single trailing slash stripped unless the whole path is
just `/`; `QDir::path()` returns this stored form. -/
def qdirPathL (l : List Char) : List Char :=
  if 1 < l.length ∧ l.getLast? = some '/' then l.dropLast else l

/-! ## The remote session model and the embedded functions -/

/-- The result of one remote command execution. -/
structure CmdResult where
  exitCode : Int
  stdout : String
  stderr : String
deriving DecidableEq, Repr

/-- The errors of the mount-preparation code: the generic remote-command
failure (`std::runtime_error` carrying the remote stderr), the sshfs-missing
failure (`SSHFSMissingError`), the unknown-user failure of home expansion,
the `std::out_of_range` abort of `std::string::substr`, and the
`std::invalid_argument` abort of `std::stoi`. -/
inductive MountError where
  | remoteCommandError (stderr : String)
  | toolMissing
  | unknownUser (user : String)
  | outOfRange
  | intParseError
deriving DecidableEq, Repr

/-- The observable state of the remote host together with the oracles for the
outputs of the fixed commands the code runs.  `dirs` lists the existing
directories (besides the root) as segment lists; `owner` maps a path to its
user and group name.  The remaining fields are the true outputs of `pwd`,
`getent passwd u` piped to the home-field cut, `id -nu`, `id -ng`, and the
raw captures of `id -u` and `id -g`; `sshfsProbe` is the result of
`which sshfs`. -/
structure RemoteState where
  dirs : List (List Seg)
  owner : List Seg → String × String
  pwd : String
  homeOf : String → String
  idNuOut : String
  idNgOut : String
  idUOut : String
  idGOut : String
  sshfsProbe : CmdResult

/-- `std::string::npos` for 64-bit `size_t`. -/
def NPOS : Nat := 2 ^ 64 - 1

/-- C++ `std::string::find(c, from)`: the index of the first occurrence of
`c` at or after `from`, or `NPOS`. -/
def cppFindFrom (s : String) (c : Char) (start : Nat) : Nat :=
  match (s.data.drop start).findIdx? (fun x => x = c) with
  | some i => start + i
  | none => NPOS

/-- C++ `std::string::substr(pos, count)`: throws `std::out_of_range` when
`pos` exceeds the size, otherwise takes at most `count` characters from
`pos`. -/
def cppSubstr (s : String) (pos count : Nat) : Except MountError String :=
  if pos > s.length then .error .outOfRange
  else .ok (String.mk ((s.data.drop pos).take count))

/-- C++ `std::stoi`: skip leading whitespace, accept an optional sign and a
non-empty run of decimal digits, and fail (`std::invalid_argument`)
otherwise. -/
def cppStoi (s : String) : Except MountError Int :=
  let t := s.data.dropWhile (fun c => c.isWhitespace)
  let signed : Int × List Char :=
    match t with
    | c :: rest => if c = '-' then (-1, rest) else if c = '+' then (1, rest) else (1, t)
    | [] => (1, t)
  let digits := signed.2.takeWhile (fun c => c.isDigit)
  if digits = [] then .error .intParseError
  else .ok (signed.1 * (digits.foldl (fun a c => a * 10 + (c.toNat - 48)) 0 : Nat))

/-- The source's templated command runner with an explicit error handler
(`runCmd` here): when the exit code is non-zero
the handler decides the error; otherwise (and when the handler returns
normally) the captured stdout is returned. -/
def runCmdWith (res : CmdResult) (error_handler : CmdResult → Except MountError Unit) :
    Except MountError String :=
  match (if res.exitCode ≠ 0 then error_handler res else .ok ()) with
  | .error e => .error e
  | .ok _ => .ok res.stdout

/-- The command runner with the default handler: a non-zero exit raises the generic
remote-command error carrying the remote stderr. -/
def runCmd (res : CmdResult) : Except MountError String :=
  runCmdWith res (fun r => .error (.remoteCommandError r.stderr))

/-- `check_sshfs_exists`: run `which sshfs` with a handler that logs a warning
carrying the probe's stderr and raises the distinct tool-missing error.  The
second component is the list of warnings logged. -/
def check_sshfs_exists (probe : CmdResult) : Except MountError String × List String :=
  (runCmdWith probe (fun _ => .error .toolMissing),
   if probe.exitCode ≠ 0 then
     ["Unable to determine if sshfs is installed: " ++ probe.stderr]
   else [])

/-- `expand_home_directory`: when the target starts with `~`, find the slash
position (position 1 both for a bare `~` and for `~/...`), resolve the home
directory of the current user (`pwd` in a fresh shell) or of the named user
(`getent` lookup, failing with the unknown-user error when it yields empty
output), and append the remainder of the target from the slash on.  The
`substr` calls are the C++ ones and propagate `std::out_of_range`. -/
def expand_home_directory (st : RemoteState) (target : String) : Except MountError String :=
  if target.data.head? = some '~' then
    let pos := if target.length = 1 then 1 else cppFindFrom target '/' 1
    if pos = 1 then
      let home := run_string_cmd st.pwd
      match cppSubstr target pos (target.length - 1) with
      | .error e => .error e
      | .ok tail => .ok (home ++ tail)
    else
      match cppSubstr target 1 (pos - 1) with
      | .error e => .error e
      | .ok username =>
        let home := run_string_cmd (st.homeOf username)
        if home.length = 0 then .error (.unknownUser username)
        else
          match cppSubstr target pos (target.length - 1) with
          | .error e => .error e
          | .ok tail => .ok (home ++ tail)
  else .ok target

/-- `get_path_split`: make the target absolute (prefixing the remote `pwd`
when `QDir` classifies it as relative), run the remote ancestor-search loop
(which echoes the found directory with a trailing slash through
`run_string_cmd`), and pair it with `QDir(existing).relativeFilePath(absolute)`.
`none` models the shell loop never terminating. -/
def get_path_split (st : RemoteState) (target : String) :
    Option (String × String) :=
  let p := qdirPathL target.data
  let absolute := if isRelL p then (run_string_cmd st.pwd).data ++ '/' :: p else p
  match findExisting st.dirs absolute with
  | none => none
  | some q =>
    let existing := (run_string_cmd (String.mk (q ++ ['/']))).data
    some (String.mk existing, String.mk (relativeFilePathL existing absolute))

/-- `make_target_dir`: when `relative_target` is non-empty, issue the remote
`mkdir -p` under `root`; the effect adds every prefix of the relative
segments (dot components create nothing).  The boolean records whether a
directory-creation command was issued. -/
def make_target_dir (st : RemoteState) (root relative_target : String) :
    RemoteState × Bool :=
  if relative_target = "" then (st, false)
  else
    let rootSegs := segsOfL root.data
    let rs := (segsOfL relative_target.data).filter (fun s => !(s = ['.'] : Bool))
    ({ st with
        dirs := st.dirs ++ (List.range rs.length).map (fun i => rootSegs ++ rs.take (i + 1)) },
     true)

/-- `set_owner_for`: resolve the connecting user and group names, take the
part of `relative_target` before its first slash, and recursively chown that
path under `root`.  A chown with an empty operand fails like the remote
command would; a `.` operand resolves to `root` itself.  The returned triple
records the resolved user, group and first-directory argument. -/
def set_owner_for (st : RemoteState) (root relative_target : String) :
    Except MountError (RemoteState × (String × String × String)) :=
  let vm_user := run_string_cmd st.idNuOut
  let vm_group := run_string_cmd st.idNgOut
  let first_slash := cppFindFrom relative_target '/' 0
  let first_dir :=
    if first_slash = NPOS then relative_target
    else String.mk (relative_target.data.take first_slash)
  if first_dir = "" then .error (.remoteCommandError "chown: missing operand")
  else
    let chTarget := segsOfL root.data ++ (segsOfL first_dir.data).filter (fun s => !(s = ['.'] : Bool))
    .ok ({ st with
            owner := fun q => if chTarget.isPrefixOf q then (vm_user, vm_group) else st.owner q },
         (vm_user, vm_group, first_dir))

/-- The data `make_sftp_server` gathers while preparing the mount. -/
structure PrepareAudit where
  expandedTarget : String
  existingPath : String
  missingRelative : String
  mkdirIssued : Bool
  chownFirstDir : String
  defaultUid : Int
  defaultGid : Int
  warnings : List String

/-- `make_sftp_server`: the full preparation sequence, in source order
(sshfs probe, home expansion, path split, directory creation, ownership,
`id -u`/`id -g` with `std::stoi`).  The outer `Option` is `none` only when
the remote search loop would not terminate; the `Except` carries the thrown
error otherwise, and on success the final remote state is returned together
with the audit of the run. -/
def make_sftp_server (st : RemoteState) (target : String) :
    Option (Except MountError (RemoteState × PrepareAudit)) :=
  match (check_sshfs_exists st.sshfsProbe).1 with
  | .error e => some (.error e)
  | .ok _ =>
    match expand_home_directory st target with
    | .error e => some (.error e)
    | .ok expanded =>
      match get_path_split st expanded with
      | none => none
      | some (leading, missing) =>
        let created := make_target_dir st leading missing
        match set_owner_for created.1 leading missing with
        | .error e => some (.error e)
        | .ok (st2, own) =>
          match cppStoi st.idUOut with
          | .error e => some (.error e)
          | .ok uid =>
            match cppStoi st.idGOut with
            | .error e => some (.error e)
            | .ok gid =>
              some (.ok (st2,
                { expandedTarget := expanded
                  existingPath := leading
                  missingRelative := missing
                  mkdirIssued := created.2
                  chownFirstDir := own.2.2
                  defaultUid := uid
                  defaultGid := gid
                  warnings := (check_sshfs_exists st.sshfsProbe).2 }))

/-! ## Laws of the path-string operations -/

theorem splitSlashL_ne_nil (l : List Char) : splitSlashL l ≠ [] := by
  cases l with
  | nil => simp [splitSlashL]
  | cons c rest =>
    unfold splitSlashL
    by_cases h : c = '/'
    · simp [h]
    · simp only [h, if_false]
      cases splitSlashL rest <;> simp

theorem splitSlashL_cons_slash (r : List Char) :
    splitSlashL ('/' :: r) = [] :: splitSlashL r := rfl

theorem splitSlashL_cons_other (c : Char) (r : List Char) (hc : c ≠ '/')
    (h1 : Seg) (t1 : List Seg) (hr : splitSlashL r = h1 :: t1) :
    splitSlashL (c :: r) = (c :: h1) :: t1 := by
  unfold splitSlashL
  simp only [hc, if_false, hr]

theorem splitSlashL_append_slash (a b : List Char) :
    splitSlashL (a ++ '/' :: b) = splitSlashL a ++ splitSlashL b := by
  induction a with
  | nil => simp [splitSlashL_cons_slash, splitSlashL]
  | cons c rest ih =>
    by_cases h : c = '/'
    · subst h
      rw [List.cons_append, splitSlashL_cons_slash, splitSlashL_cons_slash, ih]
      simp
    · rcases hr : splitSlashL rest with _ | ⟨h1, t1⟩
      · exact absurd hr (splitSlashL_ne_nil rest)
      · have hl : splitSlashL (rest ++ '/' :: b) = h1 :: (t1 ++ splitSlashL b) := by
          rw [ih, hr]
          simp
        rw [List.cons_append,
          splitSlashL_cons_other c _ h h1 (t1 ++ splitSlashL b) hl,
          splitSlashL_cons_other c rest h h1 t1 hr]
        simp

theorem splitSlashL_no_slash (s : List Char) (h : '/' ∉ s) : splitSlashL s = [s] := by
  induction s with
  | nil => rfl
  | cons c rest ih =>
    unfold splitSlashL
    have hc : c ≠ '/' := fun he => h (he ▸ List.mem_cons_self c rest)
    have hr : '/' ∉ rest := fun hm => h (List.mem_cons_of_mem c hm)
    simp only [hc, if_false, ih hr]

theorem segsOfL_nil : segsOfL [] = [] := rfl

theorem segsOfL_append_slash (a b : List Char) :
    segsOfL (a ++ '/' :: b) = segsOfL a ++ segsOfL b := by
  unfold segsOfL
  rw [splitSlashL_append_slash, List.filter_append]

theorem segsOfL_no_slash (s : List Char) (h : '/' ∉ s) :
    segsOfL s = if s = [] then [] else [s] := by
  unfold segsOfL
  rw [splitSlashL_no_slash s h]
  by_cases he : s = []
  · subst he
    rfl
  · simp only [he, if_false, List.filter]
    have : (!s.isEmpty) = true := by
      cases s with
      | nil => exact absurd rfl he
      | cons x xs => rfl
    rw [this]

theorem segsOfL_slash_append (b : List Char) :
    segsOfL ('/' :: b) = segsOfL b := by
  have : ('/' :: b) = [] ++ '/' :: b := rfl
  rw [this, segsOfL_append_slash, segsOfL_nil, List.nil_append]

theorem segsOfL_append_single_slash (a : List Char) :
    segsOfL (a ++ ['/']) = segsOfL a := by
  have : a ++ ['/'] = a ++ '/' :: [] := rfl
  rw [this, segsOfL_append_slash, segsOfL_nil, List.append_nil]

/-- A nice segment list: joining then splitting is the identity. -/
theorem segsOfL_interSlash (ss : List Seg) (h : ∀ s ∈ ss, s ≠ [] ∧ '/' ∉ s) :
    segsOfL (interSlash ss) = ss := by
  induction ss with
  | nil => rfl
  | cons s rest ih =>
    cases rest with
    | nil =>
      have hs := h s (List.mem_cons_self s [])
      show segsOfL (interSlash [s]) = [s]
      unfold interSlash
      rw [segsOfL_no_slash s hs.2]
      simp [hs.1]
    | cons s2 rest2 =>
      show segsOfL (s ++ '/' :: interSlash (s2 :: rest2)) = s :: s2 :: rest2
      rw [segsOfL_append_slash]
      have hs := h s (List.mem_cons_self s _)
      rw [segsOfL_no_slash s hs.2]
      have ih2 := ih (fun x hx => h x (List.mem_cons_of_mem s hx))
      simp only [hs.1, if_false, ih2]
      rfl

theorem segsOfL_mkAbsL (ss : List Seg) (h : ∀ s ∈ ss, s ≠ [] ∧ '/' ∉ s) :
    segsOfL (mkAbsL ss) = ss := by
  unfold mkAbsL
  rw [segsOfL_slash_append, segsOfL_interSlash ss h]

theorem interSlash_append_single (ss : List Seg) (s : Seg) :
    interSlash (ss ++ [s]) = if ss = [] then s else interSlash ss ++ '/' :: s := by
  induction ss with
  | nil => rfl
  | cons a rest ih =>
    cases rest with
    | nil => rfl
    | cons b rest2 =>
      show a ++ '/' :: interSlash ((b :: rest2) ++ [s]) = _
      rw [ih]
      show a ++ '/' :: (interSlash (b :: rest2) ++ '/' :: s)
          = (a ++ '/' :: interSlash (b :: rest2)) ++ '/' :: s
      simp

theorem mkAbsL_append_single (ss : List Seg) (s : Seg) :
    mkAbsL (ss ++ [s]) = (if ss = [] then [] else mkAbsL ss) ++ '/' :: s := by
  unfold mkAbsL
  rw [interSlash_append_single]
  by_cases h : ss = [] <;> simp [h]

theorem stripLastCompL_append (a s : List Char) (h : '/' ∉ s) :
    stripLastCompL (a ++ '/' :: s) = a := by
  induction a with
  | nil =>
    show stripLastCompL ('/' :: s) = []
    unfold stripLastCompL
    have : s.contains '/' = false := by
      rw [List.contains_eq_any_beq]
      simp only [List.any_eq_false]
      intro x hx
      simp only [beq_iff_eq]
      intro he
      exact h (he ▸ hx)
    rw [this]
    simp
  | cons c rest ih =>
    show stripLastCompL (c :: (rest ++ '/' :: s)) = c :: rest
    unfold stripLastCompL
    have : (rest ++ '/' :: s).contains '/' = true := by
      rw [List.contains_eq_any_beq]
      simp only [List.any_eq_true]
      exact ⟨'/', by simp⟩
    rw [this]
    simp only [if_true, ih]

/-! ## Laws of the ancestor-search loop -/

theorem niceSeg_base {s : Seg} (h : NiceSeg s) : s ≠ [] ∧ '/' ∉ s :=
  ⟨h.1, fun hm => (h.2.1 '/' hm).1 rfl⟩

theorem niceSegs_base {ss : List Seg} (h : NiceSegs ss) :
    ∀ s ∈ ss, s ≠ [] ∧ '/' ∉ s :=
  fun s hs => niceSeg_base (h s hs)

theorem niceSegs_sub {ss ts : List Seg} (h : NiceSegs ss) (hsub : ts ⊆ ss) :
    NiceSegs ts :=
  fun s hs => h s (hsub hs)

theorem my_take_take (l : List Seg) (m n : Nat) (h : m ≤ n) :
    (l.take n).take m = l.take m := by
  induction l generalizing m n with
  | nil => simp
  | cons a rest ih =>
    cases n with
    | zero =>
      have : m = 0 := Nat.le_zero.mp h
      simp [this]
    | succ n2 =>
      cases m with
      | zero => simp
      | succ m2 =>
        simp only [List.take_succ_cons]
        rw [ih m2 n2 (Nat.succ_le_succ_iff.mp h)]

theorem segsOfL_mkAbsL_nice (ss : List Seg) (h : NiceSegs ss) :
    segsOfL (mkAbsL ss) = ss :=
  segsOfL_mkAbsL ss (niceSegs_base h)

theorem isDirL_mkAbsL (dirs : List (List Seg)) (ss : List Seg) (h : NiceSegs ss) :
    isDirL dirs (mkAbsL ss) = isDirSegs dirs ss := by
  unfold isDirL isDirSegs
  rw [segsOfL_append_single_slash, segsOfL_mkAbsL_nice ss h]

theorem isDirSegs_nil (dirs : List (List Seg)) : isDirSegs dirs [] = true := rfl

theorem isDirL_nil (dirs : List (List Seg)) : isDirL dirs [] = true := rfl

theorem gAux_cons (dirs : List (List Seg)) (s : Seg) (rest : List Seg) :
    gAux dirs (s :: rest) =
      if isDirSegs dirs (s :: rest) then mkAbsL (s :: rest)
      else gAux dirs (s :: rest).dropLast := by
  rw [gAux]

theorem gAux_eq_splitLoopRef (dirs : List (List Seg)) (ss : List Seg) (h : ss ≠ []) :
    gAux dirs ss = splitLoopRef dirs ss := by
  cases ss with
  | nil => exact absurd rfl h
  | cons s rest => rw [gAux_cons, splitLoopRef]

theorem mkAbsL_contains_slash (ss : List Seg) : (mkAbsL ss).contains '/' = true := by
  unfold mkAbsL
  simp

/-- With enough fuel, the remote search loop started on a nice absolute path
terminates and computes the segment-level reference search. -/
theorem findExistingFuel_mkAbsL (dirs : List (List Seg)) :
    ∀ n (ss : List Seg), NiceSegs ss → ss.length ≤ n →
      ∀ fuel, ss.length < fuel →
        findExistingFuel dirs fuel (mkAbsL ss) = some (splitLoopRef dirs ss) := by
  intro n
  induction n with
  | zero =>
    intro ss h hlen fuel hfuel
    have hss : ss = [] := List.length_eq_zero.mp (Nat.le_zero.mp hlen)
    subst hss
    cases fuel with
    | zero => exact absurd hfuel (by omega)
    | succ m =>
      show (if isDirL dirs (mkAbsL []) then some (mkAbsL []) else _) = _
      rw [isDirL_mkAbsL dirs [] h, isDirSegs_nil]
      rw [splitLoopRef, isDirSegs_nil]
      simp
  | succ n ih =>
    intro ss h hlen fuel hfuel
    cases fuel with
    | zero => exact absurd hfuel (by omega)
    | succ m =>
      show (if isDirL dirs (mkAbsL ss) then some (mkAbsL ss)
        else if (mkAbsL ss).contains '/' then findExistingFuel dirs m (stripLastCompL (mkAbsL ss))
        else none) = some (splitLoopRef dirs ss)
      rw [isDirL_mkAbsL dirs ss h, mkAbsL_contains_slash]
      by_cases hdir : isDirSegs dirs ss = true
      · rw [hdir]
        rw [splitLoopRef, hdir]
        simp
      · have hdirf : isDirSegs dirs ss = false := by
          cases hb : isDirSegs dirs ss
          · rfl
          · exact absurd hb hdir
        rw [hdirf]
        simp only [Bool.false_eq_true, if_false, if_true]
        have hne : ss ≠ [] := by
          intro he
          subst he
          exact hdir (isDirSegs_nil dirs)
        have hdecomp : ss.dropLast ++ [ss.getLast hne] = ss :=
          List.dropLast_concat_getLast hne
        have hlast : NiceSeg (ss.getLast hne) := h _ (List.getLast_mem hne)
        have hstrip : stripLastCompL (mkAbsL ss) =
            (if ss.dropLast = [] then [] else mkAbsL ss.dropLast) := by
          conv =>
            lhs
            rw [← hdecomp]
          rw [mkAbsL_append_single]
          exact stripLastCompL_append _ _ (niceSeg_base hlast).2
        rw [hstrip]
        rw [splitLoopRef, hdirf]
        simp only [Bool.false_eq_true, if_false]
        by_cases hdl : ss.dropLast = []
        · rw [hdl]
          have hm : 1 ≤ m := by
            have : 1 ≤ ss.length := by
              cases ss with
              | nil => exact absurd rfl hne
              | cons a b => simp
            omega
          cases m with
          | zero => exact absurd hm (by omega)
          | succ m2 =>
            show (if isDirL dirs [] then some [] else _) = _
            rw [isDirL_nil]
            simp [gAux]
        · simp only [hdl, if_false]
          have hlen2 : ss.dropLast.length ≤ n := by
            rw [List.length_dropLast]
            omega
          have hfuel2 : ss.dropLast.length < m := by
            rw [List.length_dropLast]
            have : 1 ≤ ss.length := by
              cases ss with
              | nil => exact absurd rfl hne
              | cons a b => simp
            omega
          have hnice2 : NiceSegs ss.dropLast :=
            niceSegs_sub h (List.dropLast_subset ss)
          rw [ih ss.dropLast hnice2 hlen2 m hfuel2]
          rw [gAux_eq_splitLoopRef dirs ss.dropLast hdl]

/-- Shape of the reference search: it stops at a prefix of its input,
returning the empty string when everything was stripped away. -/
theorem gAux_shape (dirs : List (List Seg)) :
    ∀ n (ss : List Seg), ss.length ≤ n →
      ∃ k, k ≤ ss.length ∧
        gAux dirs ss = (if k = 0 then [] else mkAbsL (ss.take k)) := by
  intro n
  induction n with
  | zero =>
    intro ss hlen
    have hss : ss = [] := List.length_eq_zero.mp (Nat.le_zero.mp hlen)
    subst hss
    exact ⟨0, by simp, by simp [gAux]⟩
  | succ n ih =>
    intro ss hlen
    cases hss : ss with
    | nil => exact ⟨0, by simp, by simp [gAux]⟩
    | cons s rest =>
      subst hss
      rw [gAux_cons]
      by_cases hdir : isDirSegs dirs (s :: rest) = true
      · refine ⟨(s :: rest).length, Nat.le_refl _, ?_⟩
        rw [hdir, List.take_length]
        simp
      · have hdirf : isDirSegs dirs (s :: rest) = false := by
          cases hb : isDirSegs dirs (s :: rest)
          · rfl
          · exact absurd hb hdir
        rw [hdirf]
        simp only [Bool.false_eq_true, if_false]
        have hlen2 : (s :: rest).dropLast.length ≤ n := by
          rw [List.length_dropLast]
          simp only [List.length_cons] at hlen ⊢
          omega
        obtain ⟨k, hk, heq⟩ := ih (s :: rest).dropLast hlen2
        refine ⟨k, ?_, ?_⟩
        · calc k ≤ (s :: rest).dropLast.length := hk
            _ ≤ (s :: rest).length := by
              rw [List.length_dropLast]
              omega
        · rw [heq]
          by_cases hk0 : k = 0
          · simp [hk0]
          · simp only [hk0, if_false]
            have : (s :: rest).dropLast.take k = (s :: rest).take k := by
              rw [List.dropLast_eq_take]
              exact my_take_take _ k _ (by
                rw [List.length_dropLast] at hk
                omega)
            rw [this]

/-- Shape of the loop result: its segments are a prefix of the input segments
and it is the empty string or starts with a slash. -/
theorem splitLoopRef_spec (dirs : List (List Seg)) (ss : List Seg) (h : NiceSegs ss) :
    ∃ k, k ≤ ss.length ∧
      segsOfL (splitLoopRef dirs ss) = ss.take k ∧
      (splitLoopRef dirs ss = [] ∨ (splitLoopRef dirs ss).head? = some '/') := by
  unfold splitLoopRef
  by_cases hdir : isDirSegs dirs ss = true
  · rw [hdir]
    simp only [if_true]
    refine ⟨ss.length, Nat.le_refl _, ?_, Or.inr rfl⟩
    rw [List.take_length]
    exact segsOfL_mkAbsL_nice ss h
  · have hdirf : isDirSegs dirs ss = false := by
      cases hb : isDirSegs dirs ss
      · rfl
      · exact absurd hb hdir
    rw [hdirf]
    simp only [Bool.false_eq_true, if_false]
    obtain ⟨k, hk, heq⟩ := gAux_shape dirs ss.dropLast.length ss.dropLast (Nat.le_refl _)
    have hdll : ss.dropLast.length = ss.length - 1 := List.length_dropLast ss
    have hkss : k ≤ ss.length := by omega
    have htake : ss.dropLast.take k = ss.take k := by
      rw [List.dropLast_eq_take]
      exact my_take_take _ k _ (by omega)
    refine ⟨k, hkss, ?_, ?_⟩
    · rw [heq]
      by_cases hk0 : k = 0
      · simp [hk0, segsOfL_nil]
      · simp only [hk0, if_false]
        rw [htake]
        exact segsOfL_mkAbsL_nice _ (niceSegs_sub h (List.take_subset k ss))
    · rw [heq]
      by_cases hk0 : k = 0
      · simp [hk0]
      · simp only [hk0, if_false]
        exact Or.inr rfl

/-! ## Laws of the Qt path functions -/

theorem niceSegs_dotfree {ss : List Seg} (h : NiceSegs ss) :
    ∀ s ∈ ss, s ≠ ['.'] ∧ s ≠ ['.', '.'] :=
  fun s hs => ⟨(h s hs).2.2.1, (h s hs).2.2.2⟩

theorem cleanSegsAbsAux_dotfree (xs : List Seg)
    (h : ∀ s ∈ xs, s ≠ ['.'] ∧ s ≠ ['.', '.']) :
    ∀ acc, cleanSegsAbsAux acc xs = acc.reverse ++ xs := by
  induction xs with
  | nil => intro acc; simp [cleanSegsAbsAux]
  | cons s rest ih =>
    intro acc
    have hs := h s (List.mem_cons_self s rest)
    show cleanSegsAbsAux acc (s :: rest) = acc.reverse ++ s :: rest
    unfold cleanSegsAbsAux
    simp only [hs.1, hs.2, if_false]
    rw [ih (fun x hx => h x (List.mem_cons_of_mem s hx)) (s :: acc)]
    simp

theorem cleanSegsAbsAux_append_dot (xs : List Seg)
    (h : ∀ s ∈ xs, s ≠ ['.'] ∧ s ≠ ['.', '.']) :
    ∀ acc, cleanSegsAbsAux acc (xs ++ [['.']]) = acc.reverse ++ xs := by
  induction xs with
  | nil =>
    intro acc
    show cleanSegsAbsAux acc [['.']] = acc.reverse ++ []
    simp [cleanSegsAbsAux]
  | cons s rest ih =>
    intro acc
    have hs := h s (List.mem_cons_self s rest)
    show cleanSegsAbsAux acc (s :: (rest ++ [['.']])) = acc.reverse ++ s :: rest
    unfold cleanSegsAbsAux
    simp only [hs.1, hs.2, if_false]
    rw [ih (fun x hx => h x (List.mem_cons_of_mem s hx)) (s :: acc)]
    simp

theorem cleanPathL_of_abs (l : List Char) (h : l.head? = some '/') :
    cleanPathL l = '/' :: interSlash (cleanSegsAbsAux [] (segsOfL l)) := by
  have hne : l ≠ [] := by
    intro he
    rw [he] at h
    simp at h
  unfold cleanPathL
  simp only [hne, if_false, h, if_true]

theorem mkAbsL_head (ss : List Seg) : (mkAbsL ss).head? = some '/' := rfl

theorem cleanPathL_mkAbsL (ss : List Seg) (h : NiceSegs ss) :
    cleanPathL (mkAbsL ss) = mkAbsL ss := by
  rw [cleanPathL_of_abs _ (mkAbsL_head ss), segsOfL_mkAbsL_nice ss h,
    cleanSegsAbsAux_dotfree ss (niceSegs_dotfree h) []]
  rfl

theorem commonPrefixLen_take (ss : List Seg) (k : Nat) :
    commonPrefixLen (ss.take k) ss = min k ss.length := by
  induction ss generalizing k with
  | nil => simp [commonPrefixLen]
  | cons s rest ih =>
    cases k with
    | zero => simp [commonPrefixLen]
    | succ k2 =>
      show (if s = s then commonPrefixLen (rest.take k2) rest + 1 else 0) = _
      rw [if_pos rfl, ih k2]
      simp only [List.length_cons]
      omega

theorem interSlash_ne_nil (ss : List Seg) (h : NiceSegs ss) (hne : ss ≠ []) :
    interSlash ss ≠ [] := by
  cases ss with
  | nil => exact absurd rfl hne
  | cons s rest =>
    have hs := (h s (List.mem_cons_self s rest)).1
    cases rest with
    | nil => exact hs
    | cons b r2 =>
      show s ++ '/' :: interSlash (b :: r2) ≠ []
      intro hc
      have := List.append_eq_nil.mp hc
      simp at this

theorem isRelL_of_head (l : List Char) (h : l.head? = some '/') : isRelL l = false := by
  unfold isRelL
  rw [h]
  rfl

/-- Computation of `relativeFilePath` when the directory is the prefix of the
target found by the search loop: no `../` chunks, and the remainder is the
slash-joined missing segments, or `.` when nothing is missing. -/
theorem relativeFilePathL_spec (dirP : List Char) (ss : List Seg) (k : Nat)
    (h : NiceSegs ss) (hk : k ≤ ss.length)
    (hd : segsOfL dirP = ss.take k) (hh : dirP.head? = some '/') :
    relativeFilePathL dirP (mkAbsL ss) =
      if ss.length ≤ k then ['.'] else interSlash (ss.drop k) := by
  have hnice_take : NiceSegs (ss.take k) := niceSegs_sub h (List.take_subset k ss)
  have hdir : cleanPathL dirP = mkAbsL (ss.take k) := by
    rw [cleanPathL_of_abs dirP hh, hd,
      cleanSegsAbsAux_dotfree _ (fun s hs => niceSegs_dotfree h s (List.take_subset k ss hs)) []]
    rfl
  have hfile : cleanPathL (mkAbsL ss) = mkAbsL ss := cleanPathL_mkAbsL ss h
  have h1 : isRelL (mkAbsL ss) = false := isRelL_of_head _ (mkAbsL_head ss)
  have h2 : isRelL (mkAbsL (ss.take k)) = false := isRelL_of_head _ (mkAbsL_head _)
  have h3 : segsOfL (mkAbsL (ss.take k)) = ss.take k := segsOfL_mkAbsL_nice _ hnice_take
  have h4 : segsOfL (mkAbsL ss) = ss := segsOfL_mkAbsL_nice _ h
  have h5 : commonPrefixLen (ss.take k) ss = k := by
    rw [commonPrefixLen_take]
    exact Nat.min_eq_left hk
  have h6 : (ss.take k).length = k := by
    rw [List.length_take]
    exact Nat.min_eq_left hk
  have hup : upDirs 0 = [] := rfl
  unfold relativeFilePathL
  simp only [hdir, hfile, h1, h2, h3, h4, h5, h6, Bool.or_false, Bool.false_eq_true,
    if_false, Nat.sub_self, hup, List.nil_append]
  by_cases hle : ss.length ≤ k
  · have hdrop : ss.drop k = [] := List.drop_eq_nil_iff.mpr hle
    simp [hdrop, hle, interSlash]
  · have hdrop : ss.drop k ≠ [] := by
      intro hc
      exact hle (List.drop_eq_nil_iff.mp hc)
    have hns : interSlash (ss.drop k) ≠ [] :=
      interSlash_ne_nil _ (niceSegs_sub h (List.drop_subset k ss)) hdrop
    simp [hle, hns]

/-! ## Assembling `get_path_split` -/

theorem segsOfL_dot : segsOfL ['.'] = [['.']] := rfl

theorem head_append_of_ne_nil (ref x : List Char) (h : ref.head? = some '/') :
    (ref ++ x).head? = some '/' := by
  rw [List.head?_append, h]
  rfl

/-- Joining the returned existing prefix (which carries a trailing slash) with
the returned missing part and normalizing recovers the absolute target. -/
theorem join_clean (ss : List Seg) (k : Nat) (ref : List Char)
    (h : NiceSegs ss) (_hk : k ≤ ss.length)
    (hs : segsOfL ref = ss.take k) (hh : ref = [] ∨ ref.head? = some '/') :
    cleanPathL ((ref ++ ['/']) ++ (if ss.length ≤ k then ['.'] else interSlash (ss.drop k)))
      = mkAbsL ss := by
  set ms := (if ss.length ≤ k then ['.'] else interSlash (ss.drop k)) with hms
  have happ : (ref ++ ['/']) ++ ms = ref ++ '/' :: ms := by
    rw [List.append_assoc]
    rfl
  have hhead : ((ref ++ ['/']) ++ ms).head? = some '/' := by
    rw [happ]
    rcases hh with hnil | hcons
    · rw [hnil]
      rfl
    · exact head_append_of_ne_nil ref _ hcons
  rw [cleanPathL_of_abs _ hhead]
  rw [happ, segsOfL_append_slash, hs]
  by_cases hle : ss.length ≤ k
  · have hkk : ss.take k = ss := List.take_of_length_le hle
    rw [hms]
    simp only [hle, if_true]
    rw [segsOfL_dot, hkk]
    rw [cleanSegsAbsAux_append_dot ss (niceSegs_dotfree h) []]
    rfl
  · rw [hms]
    simp only [hle, if_false]
    have hdropnice : NiceSegs (ss.drop k) := niceSegs_sub h (List.drop_subset k ss)
    rw [segsOfL_interSlash _ (niceSegs_base hdropnice)]
    rw [List.take_append_drop]
    rw [cleanSegsAbsAux_dotfree ss (niceSegs_dotfree h) []]
    rfl

theorem interSlash_length (ss : List Seg) (h : NiceSegs ss) :
    ss.length ≤ (interSlash ss).length + 1 := by
  induction ss with
  | nil => simp
  | cons s rest ih =>
    have hs : 1 ≤ s.length := by
      have := (h s (List.mem_cons_self s rest)).1
      cases s with
      | nil => exact absurd rfl this
      | cons a b => simp
    cases rest with
    | nil =>
      show 1 ≤ s.length + 1
      omega
    | cons b r2 =>
      have ih2 := ih (fun x hx => h x (List.mem_cons_of_mem s hx))
      show (b :: r2).length + 1 ≤ (s ++ '/' :: interSlash (b :: r2)).length + 1
      simp only [List.length_append, List.length_cons] at ih2 ⊢
      omega

theorem mkAbsL_length (ss : List Seg) (h : NiceSegs ss) :
    ss.length ≤ (mkAbsL ss).length := by
  show ss.length ≤ ('/' :: interSlash ss).length
  rw [List.length_cons]
  exact interSlash_length ss h

theorem qdirPathL_mkAbsL (ss : List Seg) (h : NiceSegs ss) :
    qdirPathL (mkAbsL ss) = mkAbsL ss := by
  cases hss : ss with
  | nil =>
    show qdirPathL ['/'] = ['/']
    unfold qdirPathL
    rw [if_neg]
    intro hc
    have := hc.1
    simp at this
  | cons a rest =>
    have hne : ss ≠ [] := by
      rw [hss]
      simp
    subst hss
    have hdecomp : (a :: rest).dropLast ++ [(a :: rest).getLast hne] = a :: rest :=
      List.dropLast_concat_getLast hne
    have hlast : NiceSeg ((a :: rest).getLast hne) := h _ (List.getLast_mem hne)
    have hlne : (a :: rest).getLast hne ≠ [] := hlast.1
    have hgl : (mkAbsL (a :: rest)).getLast? =
        some (((a :: rest).getLast hne).getLast hlne) := by
      conv =>
        lhs
        rw [← hdecomp, mkAbsL_append_single]
      rw [List.getLast?_append]
      have hin : ('/' :: (a :: rest).getLast hne).getLast? =
          some (((a :: rest).getLast hne).getLast hlne) := by
        have : ('/' :: (a :: rest).getLast hne) = ['/'] ++ (a :: rest).getLast hne := rfl
        rw [this, List.getLast?_append, List.getLast?_eq_getLast _ hlne]
        rfl
      rw [hin]
      rfl
    unfold qdirPathL
    rw [if_neg]
    intro hc
    rw [hgl] at hc
    have hslash : ((a :: rest).getLast hne).getLast hlne = '/' :=
      Option.some_inj.mp hc.2
    have hmem : ((a :: rest).getLast hne).getLast hlne ∈ (a :: rest).getLast hne :=
      List.getLast_mem hlne
    exact (hlast.2.1 _ hmem).1 hslash

/-- Master computation of `get_path_split` on a nice absolute target: the
split succeeds, the existing part is the loop result with a trailing slash,
and the missing part is the slash-joined remainder of the target's segments
(`.` when nothing is missing). -/
theorem get_path_split_mkAbs (st : RemoteState) (ss : List Seg) (h : NiceSegs ss) :
    ∃ k, k ≤ ss.length ∧
      segsOfL (splitLoopRef st.dirs ss) = ss.take k ∧
      get_path_split st (String.mk (mkAbsL ss)) =
        some (String.mk (splitLoopRef st.dirs ss ++ ['/']),
              String.mk (if ss.length ≤ k then ['.'] else interSlash (ss.drop k))) := by
  obtain ⟨k, hk, hseg, hshape⟩ := splitLoopRef_spec st.dirs ss h
  refine ⟨k, hk, hseg, ?_⟩
  unfold get_path_split
  have hdata : (String.mk (mkAbsL ss)).data = mkAbsL ss := rfl
  have hq : qdirPathL (String.mk (mkAbsL ss)).data = mkAbsL ss := by
    rw [hdata]
    exact qdirPathL_mkAbsL ss h
  have hrel : isRelL (mkAbsL ss) = false := isRelL_of_head _ (mkAbsL_head ss)
  have hfind : findExisting st.dirs (mkAbsL ss) = some (splitLoopRef st.dirs ss) := by
    unfold findExisting
    exact findExistingFuel_mkAbsL st.dirs ss.length ss h (Nat.le_refl _) _
      (by
        have := mkAbsL_length ss h
        omega)
  simp only [hq, hrel, Bool.false_eq_true, if_false, hfind]
  have hrun : run_string_cmd (String.mk (splitLoopRef st.dirs ss ++ ['/']))
      = String.mk (splitLoopRef st.dirs ss ++ ['/']) := run_string_cmd_id _
  rw [hrun]
  have hdirP : segsOfL ((String.mk (splitLoopRef st.dirs ss ++ ['/'])).data) = ss.take k := by
    show segsOfL (splitLoopRef st.dirs ss ++ ['/']) = ss.take k
    rw [segsOfL_append_single_slash, hseg]
  have hhead : ((String.mk (splitLoopRef st.dirs ss ++ ['/'])).data).head? = some '/' := by
    show (splitLoopRef st.dirs ss ++ ['/']).head? = some '/'
    rcases hshape with hnil | hcons
    · rw [hnil]
      rfl
    · exact head_append_of_ne_nil _ _ hcons
  have hrfp := relativeFilePathL_spec (splitLoopRef st.dirs ss ++ ['/']) ss k h hk hdirP hhead
  rw [hrfp]

/-! ## Claims C1 and C2: the path split -/

theorem isDirSegs_of_mem (dirs : List (List Seg)) (ss : List Seg) (h : ss ∈ dirs) :
    isDirSegs dirs ss = true := by
  unfold isDirSegs
  simp [h]

theorem splitLoopRef_of_mem (dirs : List (List Seg)) (ss : List Seg) (h : ss ∈ dirs) :
    splitLoopRef dirs ss = mkAbsL ss := by
  unfold splitLoopRef
  rw [isDirSegs_of_mem dirs ss h]
  simp

/-- On a nice absolute target whose full path is an existing directory, the
split returns the target with a trailing slash and the missing part `.`. -/
theorem split_full_aux (st : RemoteState) (ss : List Seg) (h : NiceSegs ss)
    (hmem : ss ∈ st.dirs) :
    get_path_split st (String.mk (mkAbsL ss)) =
      some (String.mk (mkAbsL ss ++ ['/']), String.mk ['.']) := by
  obtain ⟨k, hk, hseg, heq⟩ := get_path_split_mkAbs st ss h
  rw [splitLoopRef_of_mem st.dirs ss hmem] at hseg heq
  have hsegss : segsOfL (mkAbsL ss) = ss := segsOfL_mkAbsL_nice ss h
  rw [hsegss] at hseg
  have hlenk : ss.length ≤ k := by
    have := congrArg List.length hseg
    rw [List.length_take] at this
    omega
  rw [heq]
  simp only [hlenk, if_true]

/-- A sample owner map for concrete states. -/
def sampleOwner : List Seg → String × String := fun _ => ("root", "root")

/-- A successful `which sshfs` probe. -/
def probeOk : CmdResult := { exitCode := 0, stdout := "/usr/bin/sshfs", stderr := "" }

/-- Concrete remote state: `/r` and `/r/a` exist. -/
def stA : RemoteState :=
  { dirs := [[['r']], [['r'], ['a']]]
    owner := sampleOwner
    pwd := "/home/u"
    homeOf := fun _ => ""
    idNuOut := "ubuntu"
    idNgOut := "ubuntu"
    idUOut := "1000"
    idGOut := "1000"
    sshfsProbe := probeOk }

/-- Concrete remote state: only `/d` exists. -/
def stB : RemoteState :=
  { dirs := [[['d']]]
    owner := sampleOwner
    pwd := "/home/u"
    homeOf := fun _ => ""
    idNuOut := "ubuntu"
    idNgOut := "ubuntu"
    idUOut := "1000"
    idGOut := "1000"
    sshfsProbe := probeOk }

/-- Claim C1 (counterexample): for the fully existing target `/d` the split
returns missing part `.`, not the empty string, so `missing` is never empty,
not even when the target already exists fully. -/
theorem get_path_split_missing_empty_cex :
    get_path_split stB "/d" = some ("/d/", ".") ∧ ("." : String) ≠ "" := by
  constructor
  · decide
  · decide

/-- Claim C1 (amended): for every nice absolute target, the split succeeds and
the pair (existing, missing) satisfies: existing is non-empty and absolute
with a trailing slash (in the worst case the filesystem root), joining
existing with missing and normalizing yields the expanded absolute target,
and missing is never empty — when the target already exists fully it is `.`
rather than the empty string. -/
theorem get_path_split_invariant (st : RemoteState) (ss : List Seg) (h : NiceSegs ss) :
    ∃ ex ms : String,
      get_path_split st (String.mk (mkAbsL ss)) = some (ex, ms) ∧
      ex ≠ "" ∧ ex.data.head? = some '/' ∧ ex.data.getLast? = some '/' ∧
      ms ≠ "" ∧
      cleanPathL (ex.data ++ ms.data) = mkAbsL ss ∧
      (ss ∈ st.dirs → ms = String.mk ['.']) := by
  obtain ⟨k, hk, hseg, heq⟩ := get_path_split_mkAbs st ss h
  obtain ⟨k2, hk2, hseg2, hshape⟩ := splitLoopRef_spec st.dirs ss h
  refine ⟨String.mk (splitLoopRef st.dirs ss ++ ['/']),
    String.mk (if ss.length ≤ k then ['.'] else interSlash (ss.drop k)),
    heq, ?_, ?_, ?_, ?_, ?_, ?_⟩
  · intro hc
    have : (splitLoopRef st.dirs ss ++ ['/']) = [] := congrArg String.data hc
    simp at this
  · show (splitLoopRef st.dirs ss ++ ['/']).head? = some '/'
    rcases hshape with hnil | hcons
    · rw [hnil]
      rfl
    · exact head_append_of_ne_nil _ _ hcons
  · show (splitLoopRef st.dirs ss ++ ['/']).getLast? = some '/'
    rw [List.getLast?_append]
    rfl
  · intro hc
    have hdc : (if ss.length ≤ k then ['.'] else interSlash (ss.drop k)) = [] :=
      congrArg String.data hc
    by_cases hle : ss.length ≤ k
    · rw [if_pos hle] at hdc
      simp at hdc
    · rw [if_neg hle] at hdc
      have hdrop : ss.drop k ≠ [] := by
        intro hcc
        exact hle (List.drop_eq_nil_iff.mp hcc)
      exact interSlash_ne_nil _ (niceSegs_sub h (List.drop_subset k ss)) hdrop hdc
  · show cleanPathL ((splitLoopRef st.dirs ss ++ ['/'])
        ++ (if ss.length ≤ k then ['.'] else interSlash (ss.drop k))) = mkAbsL ss
    exact join_clean ss k (splitLoopRef st.dirs ss) h hk hseg hshape
  · intro hmem
    have hfull := split_full_aux st ss h hmem
    rw [heq] at hfull
    have := (Prod.mk.injEq _ _ _ _).mp (Option.some_inj.mp hfull)
    exact this.2

/-- Claim C1 (witness): the invariant at the concrete state where only `/r`
and `/r/a` exist and the target is `/r/a/b`. -/
theorem get_path_split_invariant_witness :
    NiceSegs [['r'], ['a'], ['b']] ∧
    (∃ ex ms : String,
      get_path_split stA (String.mk (mkAbsL [['r'], ['a'], ['b']])) = some (ex, ms) ∧
      ex ≠ "" ∧ ex.data.head? = some '/' ∧ ex.data.getLast? = some '/' ∧
      ms ≠ "" ∧
      cleanPathL (ex.data ++ ms.data) = mkAbsL [['r'], ['a'], ['b']] ∧
      ([['r'], ['a'], ['b']] ∈ stA.dirs → ms = String.mk ['.'])) :=
  ⟨by decide, get_path_split_invariant stA [['r'], ['a'], ['b']] (by decide)⟩

/-- Claim C2 (counterexample): for the fully existing absolute target `/r/a`,
`split_path` does NOT return an empty `missing_relative`; it returns `.`. -/
theorem get_path_split_fully_existing_cex :
    get_path_split stA "/r/a" = some ("/r/a/", ".") ∧
    get_path_split stA "/r/a" ≠ some ("/r/a/", "") := by
  constructor
  · decide
  · decide

/-- Claim C2 (amended): for every nice absolute target whose full path already
exists on the remote host, `split_path` returns `missing_relative` equal to
`.` (not the empty string) and `existing_path` equal to the target with a
trailing slash appended. -/
theorem get_path_split_fully_existing (st : RemoteState) (ss : List Seg)
    (h : NiceSegs ss) (hmem : ss ∈ st.dirs) :
    get_path_split st (String.mk (mkAbsL ss)) =
      some (String.mk (mkAbsL ss ++ ['/']), ".") :=
  split_full_aux st ss h hmem

/-- Claim C2 (witness): the amended statement at the concrete state where
`/r/a` exists and the target is `/r/a`. -/
theorem get_path_split_fully_existing_witness :
    get_path_split stA (String.mk (mkAbsL [['r'], ['a']])) =
      some (String.mk (mkAbsL [['r'], ['a']] ++ ['/']), ".") :=
  get_path_split_fully_existing stA [['r'], ['a']] (by decide) (by decide)

/-! ## Claims C7 and C10: home-directory expansion -/

theorem string_length_zero_iff (s : String) : s.length = 0 ↔ s = "" := by
  constructor
  · intro h
    have hd : s.data = [] := List.length_eq_zero.mp h
    calc s = String.mk s.data := (string_mk_data s).symm
      _ = "" := by rw [hd]
  · intro h
    rw [h]
    rfl

/-- Claim C7: for the target `~alice/data`, home expansion returns alice's
remotely resolved home directory concatenated with `/data`; when the remote
password-database lookup for `alice` yields empty output, it fails with the
unknown-user error instead of returning a path. -/
theorem expand_home_directory_user (st : RemoteState) :
    (st.homeOf "alice" ≠ "" →
      expand_home_directory st "~alice/data" = .ok (st.homeOf "alice" ++ "/data")) ∧
    (st.homeOf "alice" = "" →
      expand_home_directory st "~alice/data" = .error (.unknownUser "alice")) := by
  have hhead : ("~alice/data" : String).data.head? = some '~' := by decide
  have hlen1 : ¬ ("~alice/data" : String).length = 1 := by decide
  have hfind : cppFindFrom "~alice/data" '/' 1 = 6 := by decide
  have husr : cppSubstr "~alice/data" 1 (6 - 1) = .ok "alice" := rfl
  have htail : cppSubstr "~alice/data" 6 (("~alice/data" : String).length - 1) =
      .ok "/data" := rfl
  have hred : expand_home_directory st "~alice/data" =
      (if (run_string_cmd (st.homeOf "alice")).length = 0 then
        Except.error (MountError.unknownUser "alice")
      else Except.ok (run_string_cmd (st.homeOf "alice") ++ "/data")) := by
    unfold expand_home_directory
    rw [if_pos hhead]
    simp only [hlen1, if_false, hfind]
    rw [if_neg (by decide : ¬ (6 : Nat) = 1)]
    simp only [husr, htail]
  rw [hred, run_string_cmd_id]
  constructor
  · intro h
    rw [if_neg (fun hc => h ((string_length_zero_iff _).mp hc))]
  · intro h
    rw [if_pos ((string_length_zero_iff _).mpr h)]

/-- Concrete remote state in which `alice` has a home directory. -/
def stC : RemoteState :=
  { dirs := [[['r']]]
    owner := sampleOwner
    pwd := "/home/u"
    homeOf := fun u => if u = "alice" then "/home/alice" else ""
    idNuOut := "ubuntu"
    idNgOut := "ubuntu"
    idUOut := "1000"
    idGOut := "1000"
    sshfsProbe := probeOk }

/-- Claim C7 (witness): both branches at concrete states — `alice` resolvable
in `stC`, unresolvable in `stA`. -/
theorem expand_home_directory_user_witness :
    expand_home_directory stC "~alice/data" = .ok ("/home/alice" ++ "/data") ∧
    expand_home_directory stA "~alice/data" = .error (.unknownUser "alice") :=
  ⟨(expand_home_directory_user stC).1 (by decide),
   (expand_home_directory_user stA).2 (by decide)⟩

/-- Claim C10: for a target `~u` with a non-empty username and no slash
anywhere after the shorthand, when the remote home lookup for `u` succeeds
with non-empty output, `expand_home_directory` does not return the home: the
slash search fails with `npos`, and the final `substr` at position `npos`
aborts with the out-of-range error instead of producing a result. -/
theorem expand_home_no_slash_out_of_range (st : RemoteState) (u : String)
    (h1 : u ≠ "") (h2 : '/' ∉ u.data) (h3 : st.homeOf u ≠ "")
    (h4 : u.length + 1 < NPOS) :
    expand_home_directory st ("~" ++ u) = .error .outOfRange := by
  have hdata : ("~" ++ u).data = '~' :: u.data := by
    rw [String.data_append]
    rfl
  have hhead : ("~" ++ u).data.head? = some '~' := by
    rw [hdata]
    rfl
  have hulen : u.length ≠ 0 := fun hc => h1 ((string_length_zero_iff u).mp hc)
  have hlen : ("~" ++ u).length = 1 + u.length := by
    rw [String.length_append]
    rfl
  have hlen1 : ¬ ("~" ++ u).length = 1 := by
    rw [hlen]
    omega
  have hfind : cppFindFrom ("~" ++ u) '/' 1 = NPOS := by
    unfold cppFindFrom
    have hdrop : ("~" ++ u).data.drop 1 = u.data := by
      rw [hdata]
      rfl
    rw [hdrop]
    have : u.data.findIdx? (fun x => x = '/') = none := by
      rw [List.findIdx?_eq_none_iff]
      intro x hx
      simp only [decide_eq_false_iff_not]
      intro he
      exact h2 (he ▸ hx)
    rw [this]
  have hnpos1 : ¬ NPOS = 1 := by decide
  have husr : cppSubstr ("~" ++ u) 1 (NPOS - 1) = .ok u := by
    unfold cppSubstr
    rw [if_neg (by
      rw [hlen]
      omega)]
    rw [hdata]
    show Except.ok (String.mk (u.data.take (NPOS - 1))) = Except.ok u
    rw [List.take_of_length_le (by
      show u.length ≤ NPOS - 1
      omega)]
  have htail : cppSubstr ("~" ++ u) NPOS (("~" ++ u).length - 1) = .error .outOfRange := by
    unfold cppSubstr
    rw [if_pos (by
      rw [hlen]
      omega)]
  unfold expand_home_directory
  rw [if_pos hhead]
  simp only [hlen1, if_false, hfind]
  rw [if_neg hnpos1]
  simp only [husr, run_string_cmd_id, htail]
  rw [if_neg (fun hc => h3 ((string_length_zero_iff _).mp hc))]

/-- Claim C10 (witness): the abort at the concrete target `~alice` in the
state where `alice` has a home directory. -/
theorem expand_home_no_slash_out_of_range_witness :
    expand_home_directory stC ("~" ++ "alice") = .error .outOfRange :=
  expand_home_no_slash_out_of_range stC "alice" (by decide) (by decide) (by decide)
    (by decide)

/-! ## Claim C6: ownership of the first missing segment only -/

/-- The owner map after `set_owner_for` on root `/r/` with relative part
`a/b/c`: exactly the paths extending `/r/a` change to the connecting
user/group. -/
def c6Owner (st : RemoteState) (q : List Seg) : String × String :=
  if [['r'], ['a']].isPrefixOf q then (st.idNuOut, st.idNgOut) else st.owner q

/-- Claim C6: provisioning `a/b/c` under the existing root `/r/` chowns
recursively exactly the first missing segment `/r/a` and its subtree to the
connecting user and group (the resolved `id -nu` and `id -ng` outputs), and
every other path — in particular the pre-existing root `/r` — keeps its
previous owner. -/
theorem set_owner_for_first_segment (st : RemoteState) :
    set_owner_for st "/r/" "a/b/c" =
      .ok ({ st with owner := fun q => c6Owner st q },
           (st.idNuOut, st.idNgOut, "a")) ∧
    (∀ q, [['r'], ['a']].isPrefixOf q = true → c6Owner st q = (st.idNuOut, st.idNgOut)) ∧
    (∀ q, [['r'], ['a']].isPrefixOf q = false → c6Owner st q = st.owner q) ∧
    c6Owner st [['r']] = st.owner [['r']] := by
  refine ⟨?_, ?_, ?_, ?_⟩
  · unfold set_owner_for
    simp only [run_string_cmd_id]
    rw [if_neg (by decide :
      ¬(if cppFindFrom "a/b/c" '/' 0 = NPOS then ("a/b/c" : String)
        else String.mk (("a/b/c" : String).data.take (cppFindFrom "a/b/c" '/' 0))) = "")]
    unfold c6Owner
    rfl
  · intro q hq
    unfold c6Owner
    rw [hq]
    simp
  · intro q hq
    unfold c6Owner
    rw [hq]
    simp
  · unfold c6Owner
    rw [show [['r'], ['a']].isPrefixOf [['r']] = false from by decide]
    simp

/-- Claim C6 (witness): at the concrete state `stA`, the subtree `/r/a/x` is
owned by the connecting identity after the chown while `/r` is untouched. -/
theorem set_owner_for_first_segment_witness :
    c6Owner stA [['r'], ['a'], ['x']] = (stA.idNuOut, stA.idNgOut) ∧
    c6Owner stA [['r']] = stA.owner [['r']] :=
  ⟨(set_owner_for_first_segment stA).2.1 [['r'], ['a'], ['x']] (by decide),
   (set_owner_for_first_segment stA).2.2.2⟩

/-! ## Claim C8: the tool-missing probe -/

/-- Claim C8: when the sshfs probe exits non-zero, the probe fails with the
distinct tool-missing error — never with the generic remote-command error —
after logging a warning carrying the probe's stderr, and the whole mount
preparation fails with the tool-missing error. -/
theorem check_sshfs_missing (st : RemoteState) (target : String)
    (h : st.sshfsProbe.exitCode ≠ 0) :
    (check_sshfs_exists st.sshfsProbe).1 = .error .toolMissing ∧
    (∀ s, (check_sshfs_exists st.sshfsProbe).1 ≠ .error (.remoteCommandError s)) ∧
    (check_sshfs_exists st.sshfsProbe).2 =
      ["Unable to determine if sshfs is installed: " ++ st.sshfsProbe.stderr] ∧
    make_sftp_server st target = some (.error .toolMissing) := by
  have hchk : (check_sshfs_exists st.sshfsProbe).1 = .error .toolMissing := by
    unfold check_sshfs_exists runCmdWith
    simp only [h, ne_eq, not_false_iff, if_true]
  refine ⟨hchk, ?_, ?_, ?_⟩
  · intro s hc
    rw [hchk] at hc
    simp at hc
  · unfold check_sshfs_exists
    simp only [h, ne_eq, not_false_iff, if_true]
  · unfold make_sftp_server
    rw [hchk]

/-- Concrete remote state with a failing sshfs probe. -/
def stBad : RemoteState :=
  { dirs := [[['r']]]
    owner := sampleOwner
    pwd := "/home/u"
    homeOf := fun _ => ""
    idNuOut := "ubuntu"
    idNgOut := "ubuntu"
    idUOut := "1000"
    idGOut := "1000"
    sshfsProbe := { exitCode := 1, stdout := "", stderr := "sshfs not found" } }

/-- Claim C8 (witness): the failing probe in `stBad` makes preparation fail
with the tool-missing error and logs the warning. -/
theorem check_sshfs_missing_witness :
    make_sftp_server stBad "/r" = some (.error .toolMissing) ∧
    (check_sshfs_exists stBad.sshfsProbe).2 =
      ["Unable to determine if sshfs is installed: " ++ stBad.sshfsProbe.stderr] :=
  ⟨(check_sshfs_missing stBad "/r" (by decide)).2.2.2,
   (check_sshfs_missing stBad "/r" (by decide)).2.2.1⟩

/-! ## Claim C9: the mount handle lifecycle -/

/-- The worker thread of a mount handle, modelling the observable state of
`std::thread`: whether it was ever started and whether it has been joined. -/
structure WorkerThread where
  started : Bool
  joined : Bool
deriving DecidableEq, Repr

/-- `std::thread` misuse: joining a non-joinable thread. -/
inductive ThreadError where
  | notJoinable
deriving DecidableEq, Repr

/-- `joinable()`: started and not yet joined. -/
def WorkerThread.joinable (t : WorkerThread) : Bool := t.started && !t.joined

/-- `join()`: blocks until the worker exits (the sftp server's `run` returns
once stopped, so the join terminates) and errors on a non-joinable thread. -/
def WorkerThread.join (t : WorkerThread) : Except ThreadError WorkerThread :=
  if t.joinable then .ok { t with joined := true } else .error .notJoinable

/-- The mount handle: the sftp server's stop flag and the worker thread. -/
structure SshfsMountHandle where
  serverStopRequested : Bool
  sftpThread : WorkerThread
deriving DecidableEq, Repr

/-- The handle as the constructor leaves it: one worker started, not joined. -/
def sshfsMountStart : SshfsMountHandle :=
  { serverStopRequested := false, sftpThread := { started := true, joined := false } }

/-- The worker is running: started and not joined. -/
def SshfsMountHandle.workerRunning (m : SshfsMountHandle) : Bool :=
  m.sftpThread.started && !m.sftpThread.joined

/-- `SshfsMount::stop`: request the server to stop, then join the worker only
when it is joinable.  The boolean reports whether a join was performed. -/
def SshfsMountHandle.stop (m : SshfsMountHandle) :
    Except ThreadError (SshfsMountHandle × Bool) :=
  let m1 : SshfsMountHandle := { m with serverStopRequested := true }
  if m1.sftpThread.joinable then
    match m1.sftpThread.join with
    | .ok t => .ok ({ m1 with sftpThread := t }, true)
    | .error e => .error e
  else .ok (m1, false)

/-- `SshfsMount::~SshfsMount`: destruction performs a stop. -/
def SshfsMountHandle.destroy (m : SshfsMountHandle) :
    Except ThreadError (SshfsMountHandle × Bool) := m.stop

/-- Claim C9: for every mount handle, stop never errors; a second stop —
including the stop performed by destruction after an explicit stop — is a
no-op that performs no join, returns without error, and leaves the worker
not running; stop never starts a new worker, so the single worker started by
the constructor is the only one that ever runs. -/
theorem sshfs_mount_stop_idempotent (m : SshfsMountHandle) :
    ∃ m1, m.stop = .ok (m1, m.workerRunning) ∧
      m1.stop = .ok (m1, false) ∧
      m1.destroy = .ok (m1, false) ∧
      m1.workerRunning = false ∧
      m1.sftpThread.started = m.sftpThread.started := by
  rcases m with ⟨sr, ⟨st, j⟩⟩
  cases sr <;> cases st <;> cases j <;> exact ⟨_, rfl, rfl, rfl, rfl, rfl⟩

/-! ## Claim C3: re-running the prepare sequence -/

theorem check_sshfs_ok (probe : CmdResult) (h : probe.exitCode = 0) :
    (check_sshfs_exists probe).1 = .ok probe.stdout := by
  unfold check_sshfs_exists runCmdWith
  simp only [h]
  rfl

theorem expand_home_directory_abs (st : RemoteState) (l : List Char)
    (h : l.head? = some '/') :
    expand_home_directory st (String.mk l) = .ok (String.mk l) := by
  unfold expand_home_directory
  rw [if_neg]
  show ¬ (String.mk l).data.head? = some '~'
  show ¬ l.head? = some '~'
  rw [h]
  intro hc
  simp at hc

theorem make_target_dir_dot (st : RemoteState) (root : String) :
    make_target_dir st root "." = ({ st with dirs := st.dirs ++ [] }, true) := rfl

theorem set_owner_for_dot (st : RemoteState) (root : String) :
    set_owner_for st root "." =
      .ok ({ st with owner := fun q =>
              if (segsOfL root.data).isPrefixOf q then (st.idNuOut, st.idNgOut)
              else st.owner q },
           (st.idNuOut, st.idNgOut, ".")) := by
  unfold set_owner_for
  simp only [run_string_cmd_id]
  rw [if_neg (by decide :
    ¬(if cppFindFrom "." '/' 0 = NPOS then ("." : String)
      else String.mk (("." : String).data.take (cppFindFrom "." '/' 0))) = "")]
  rw [show cppFindFrom "." '/' 0 = NPOS from rfl]
  rw [if_pos rfl]
  have hseg : (segsOfL ("." : String).data).filter (fun s => !(s = ['.'] : Bool)) =
      ([] : List Seg) := rfl
  rw [hseg, List.append_nil]

/-- Claim C3 (amended): running the prepare sequence against a target whose
full path already exists — the state a successful first run leaves behind —
succeeds, computes `missing_relative = "."` (not the empty string), and DOES
issue a directory-creation command, albeit a vacuous `mkdir -p .` that
creates nothing: the directory set is unchanged. -/
theorem make_sftp_server_rerun (st : RemoteState) (ss : List Seg)
    (h : NiceSegs ss) (hmem : ss ∈ st.dirs)
    (hprobe : st.sshfsProbe.exitCode = 0)
    (uid gid : Int) (hu : cppStoi st.idUOut = .ok uid) (hg : cppStoi st.idGOut = .ok gid) :
    ∃ st2 audit,
      make_sftp_server st (String.mk (mkAbsL ss)) = some (.ok (st2, audit)) ∧
      audit.missingRelative = "." ∧
      audit.mkdirIssued = true ∧
      st2.dirs = st.dirs := by
  have hchk : (check_sshfs_exists st.sshfsProbe).1 = .ok st.sshfsProbe.stdout :=
    check_sshfs_ok st.sshfsProbe hprobe
  have hexp : expand_home_directory st (String.mk (mkAbsL ss)) =
      .ok (String.mk (mkAbsL ss)) :=
    expand_home_directory_abs st (mkAbsL ss) (mkAbsL_head ss)
  have hsplit := split_full_aux st ss h hmem
  unfold make_sftp_server
  simp only [hchk, hexp, hsplit]
  simp only [show (String.mk ['.'] : String) = "." from rfl]
  simp only [make_target_dir_dot, set_owner_for_dot, hu, hg]
  refine ⟨_, _, rfl, rfl, rfl, ?_⟩
  show (st.dirs ++ []) = st.dirs
  exact List.append_nil st.dirs

/-- Claim C3 (witness): the amended statement at the concrete state where the
whole target `/r/a` already exists (as after a first provisioning run). -/
theorem make_sftp_server_rerun_witness :
    ∃ st2 audit,
      make_sftp_server stA (String.mk (mkAbsL [['r'], ['a']])) = some (.ok (st2, audit)) ∧
      audit.missingRelative = "." ∧
      audit.mkdirIssued = true ∧
      st2.dirs = stA.dirs :=
  make_sftp_server_rerun stA [['r'], ['a']] (by decide) (by decide) (by decide)
    1000 1000 rfl rfl

/-- The missing part and mkdir flag of the second of two consecutive prepare
runs against the same target. -/
def secondRunAudit (st : RemoteState) (t : String) : Option (String × Bool) :=
  match make_sftp_server st t with
  | some (.ok (st1, _)) =>
    match make_sftp_server st1 t with
    | some (.ok (_, a2)) => some (a2.missingRelative, a2.mkdirIssued)
    | _ => none
  | _ => none

/-- Claim C3 (counterexample): starting from the state where only `/r` exists,
a first prepare run fully provisions `/r/a`; the second run computes
`missing_relative = "."` — not the empty string — and DOES issue a
directory-creation command. -/
theorem make_sftp_server_rerun_cex :
    secondRunAudit stC "/r/a" = some (".", true) ∧ ("." : String) ≠ "" := by
  constructor
  · decide
  · decide

/-- Claim C9 (witness): the stop contract at the freshly constructed handle. -/
theorem sshfs_mount_stop_idempotent_witness :
    ∃ m1, sshfsMountStart.stop = .ok (m1, sshfsMountStart.workerRunning) ∧
      m1.stop = .ok (m1, false) ∧
      m1.destroy = .ok (m1, false) ∧
      m1.workerRunning = false ∧
      m1.sftpThread.started = sshfsMountStart.sftpThread.started :=
  sshfs_mount_stop_idempotent sshfsMountStart
